import Mathlib

/-!
Shallow embedding of the DAG engine in `run/dag/dag.go` (package `dag`)
of the `terramate` repository.

Go maps are modelled as association lists (`List (ID × β)`) with a
single binding per key (`setList` replaces in place); slices of ids are
`List ID`.  The two recursive traversals (`hasCycle` for `Validate`,
`walkFrom` for `Order`) are general-recursive in Go, so they are
embedded with an explicit fuel parameter; `none` models non-termination
(fuel exhaustion) and we prove that the fuel chosen by the wrappers
suffices wherever the Go code terminates.  `addEdge`'s panic branch is
modelled as `none` of an outer `Option` layer.
-/

namespace TerramateDag

/-- `ID` of nodes (`type ID string`). -/
abbrev ID := String

/-- The three error constants of the package (`errutil.Error` values). -/
inductive DagError where
  | ErrDuplicateNode
  | ErrNodeNotFound
  | ErrCycleDetected
deriving DecidableEq, Repr

/-- Go map read `m[k]`: first (unique) binding of `k` in the list. -/
def lookupList {β : Type _} : List (ID × β) → ID → Option β
  | [], _ => none
  | (k', v) :: rest, k => if k' = k then some v else lookupList rest k

/-- Go map write `m[k] = v`: replace the binding in place, or append. -/
def setList {β : Type _} : List (ID × β) → ID → β → List (ID × β)
  | [], k, v => [(k, v)]
  | (k', v') :: rest, k, v =>
      if k' = k then (k, v) :: rest else (k', v') :: setList rest k v

/-- The key set of a Go map, as the list of bound keys. -/
def keys {β : Type _} (m : List (ID × β)) : List ID := m.map Prod.fst

/-- `idList.contains` from the source. -/
def listContains : List ID → ID → Bool
  | [], _ => false
  | id :: rest, other => if id = other then true else listContains rest other

/-- Go set-map write `s[id] = true` (used for `cycles` and `visited`). -/
def setAdd (s : List ID) (id : ID) : List ID :=
  if listContains s id then s else id :: s

/-- Go read `d.dag[id]` of an adjacency list: zero value `[]` if absent. -/
def childrenOf (g : List (ID × List ID)) (id : ID) : List ID :=
  (lookupList g id).getD []

/-- Lexicographic `<` on char lists: the order Go uses on `string`
(byte-wise lexicographic), decidable by computation. -/
def charListLt : List Char → List Char → Bool
  | [], [] => false
  | [], _ :: _ => true
  | _ :: _, [] => false
  | a :: as, b :: bs =>
      if a < b then true else if b < a then false else charListLt as bs

/-- The `ids[i] < ids[j]` comparison of `idList.Less`. -/
def idLt (a b : ID) : Bool := charListLt a.data b.data

/-- Insert into an `idLt`-ascending list (helper for `sortedIds`). -/
def insertSorted (x : ID) : List ID → List ID
  | [] => [x]
  | y :: ys => if idLt y x then y :: insertSorted x ys else x :: y :: ys

/-- `sortedIds`: sort a list of ids ascending by the `ID` order
(`sort.Sort` with `Less i j = ids[i] < ids[j]`). -/
def sortedIds (ids : List ID) : List ID := ids.foldr insertSorted []

/-- Index of the first occurrence of `a` (length if absent); used to state
"appears before" about the output of `Order`. -/
def idxOf : List ID → ID → Nat
  | [], _ => 0
  | x :: xs, a => if x = a then 0 else idxOf xs a + 1

/-- `DAG` is a Directed-Acyclic Graph (the struct of the source, with the
payload type `interface{}` as a type parameter `α`). -/
structure DAG (α : Type _) where
  dag : List (ID × List ID)
  values : List (ID × α)
  cycles : List ID
  validated : Bool
deriving DecidableEq, Repr

/-- `New` creates a new empty Directed-Acyclic-Graph. -/
def New {α : Type _} : DAG α :=
  { dag := [], values := [], cycles := [], validated := false }

/-- `addEdge(from, to)`: look up `from`'s edge list (panic — modelled as
`none` — when absent), append `to` unless already present, store back. -/
def addEdge {α : Type _} (d : DAG α) (fromId toId : ID) : Option (DAG α) :=
  match lookupList d.dag fromId with
  | none => none
  | some fromEdges =>
      let fromEdges :=
        if ¬ (listContains fromEdges toId) then fromEdges ++ [toId] else fromEdges
      some { d with dag := setList d.dag fromId fromEdges }

/-- `addEdges(from, toids)`: `addEdge` for each target in order. -/
def addEdges {α : Type _} (d : DAG α) (fromId : ID) : List ID → Option (DAG α)
  | [] => some d
  | toId :: rest =>
      match addEdge d fromId toId with
      | none => none
      | some d' => addEdges d' fromId rest

/-- The `if _, ok := d.dag[x]; !ok { d.dag[x] = []ID{} }` blocks of
`AddNode`: create an empty adjacency entry when absent. -/
def ensureEntry {α : Type _} (d : DAG α) (x : ID) : DAG α :=
  if (lookupList d.dag x).isNone then
    { d with dag := setList d.dag x [] }
  else d

/-- One `before`-loop iteration of `AddNode`: ensure `bid` has an
adjacency entry, then `addEdge(bid, id)`. -/
def addBeforeStep {α : Type _} (id : ID) (od : Option (DAG α)) (bid : ID) :
    Option (DAG α) :=
  match od with
  | none => none
  | some d => addEdge (ensureEntry d bid) bid id

/-- `AddNode(id, value, before, after)`.  Result: `none` models the panic
in `addEdge`; `some (d', some e)` a returned error with the (unchanged)
state; `some (d', none)` success. -/
def AddNode {α : Type _} (d : DAG α) (id : ID) (value : α)
    (before after : List ID) : Option (DAG α × Option DagError) :=
  if (lookupList d.values id).isSome then
    some (d, some DagError.ErrDuplicateNode)
  else
    match before.foldl (addBeforeStep id) (some d) with
    | none => none
    | some d =>
        match addEdges (ensureEntry d id) id after with
        | none => none
        | some d =>
            some ({ d with
                      values := setList d.values id value,
                      validated := false }, none)

/-- `IDs()` returns the sorted list of node ids (the map's keys). -/
def IDs {α : Type _} (d : DAG α) : List ID := sortedIds (keys d.dag)

/-- `Node(id)` returns the node's value or `ErrNodeNotFound`. -/
def Node {α : Type _} (d : DAG α) (id : ID) : Except DagError α :=
  match lookupList d.values id with
  | some v => Except.ok v
  | none => Except.error DagError.ErrNodeNotFound

/-- `ChildrenOf(id)` returns the ids that are children of `id`. -/
def ChildrenOf {α : Type _} (d : DAG α) (id : ID) : List ID :=
  childrenOf d.dag id

/-- The `for _, tid := range sortedIds(children)` loop of `hasCycle`:
`step` is the recursive call at one fuel level less; the first step that
reports a cycle short-circuits the remaining siblings. -/
def hasCycleChildren (step : List ID → ID → Option (List ID × Bool × String)) :
    List ID → List ID → Option (List ID × Bool × String)
  | cycles, [] => some (cycles, false, "")
  | cycles, tid :: rest =>
      match step cycles tid with
      | none => none
      | some (cycles', true, r) => some (cycles', true, r)
      | some (cycles', false, _) => hasCycleChildren step cycles' rest

/-- `hasCycle(branch, children, reason)`: fueled embedding of the DFS of
the validator; the threaded `List ID` is the `cycles` set the Go method
mutates.  `none` is fuel exhaustion (never reached, see the totality
lemma below). -/
def hasCycle (g : List (ID × List ID)) :
    Nat → List ID → List ID → List ID → String →
    Option (List ID × Bool × String)
  | 0, _, _, _, _ => none
  | fuel + 1, cycles, branch, children, reason =>
      match branch.find? (fun bid => listContains children bid) with
      | some bid => some (setAdd cycles bid, true, reason ++ " " ++ bid)
      | none =>
          hasCycleChildren
            (fun cycles' tid =>
              hasCycle g fuel cycles' (branch ++ [tid]) (childrenOf g tid)
                (reason ++ " " ++ tid ++ " ->"))
            cycles (sortedIds children)

/-- `validateNode(id, children)`: run `hasCycle` from `[id]` with reason
seed `"<id> ->"`; on a cycle also mark `id` and return
`ErrCycleDetected`. -/
def validateNode (g : List (ID × List ID)) (fuel : Nat) (cycles : List ID)
    (id : ID) (children : List ID) :
    Option (List ID × String × Option DagError) :=
  match hasCycle g fuel cycles [id] children (id ++ " ->") with
  | none => none
  | some (cycles', true, reason) =>
      some (setAdd cycles' id, reason, some DagError.ErrCycleDetected)
  | some (cycles', false, _) => some (cycles', "", none)

/-- The `for _, id := range d.IDs()` loop of `Validate`. -/
def validateLoop (g : List (ID × List ID)) (fuel : Nat) :
    List ID → List ID → Option (List ID × String × Option DagError)
  | cycles, [] => some (cycles, "", none)
  | cycles, id :: rest =>
      match validateNode g fuel cycles id (childrenOf g id) with
      | none => none
      | some (cycles', reason, some e) => some (cycles', reason, some e)
      | some (cycles', _, none) => validateLoop g fuel cycles' rest

/-- Fuel that always suffices for the validator's DFS (the branch can
never revisit an id, so its length is bounded by the key count). -/
def validateFuel {α : Type _} (d : DAG α) : Nat := d.dag.length + 2

/-- `Validate()`: reset the cycle set, set the validated flag, scan every
id in ascending order; returns the new state, the reason string and the
error (if a cycle was found). -/
def Validate {α : Type _} (d : DAG α) :
    Option (DAG α × String × Option DagError) :=
  match validateLoop d.dag (validateFuel d) [] (IDs d) with
  | none => none
  | some (cycles, reason, err) =>
      some ({ d with cycles := cycles, validated := true }, reason, err)

/-- `HasCycle(id)`: lazily validate, collapse a successful validation to
`false`, otherwise read the cycle set. -/
def HasCycle {α : Type _} (d : DAG α) (id : ID) : Option (DAG α × Bool) :=
  if d.validated = false then
    match Validate d with
    | none => none
    | some (d', _, none) => some (d', false)
    | some (d', _, some _) => some (d', listContains d'.cycles id)
  else
    some (d, listContains d.cycles id)

/-- The `for _, tid := range sortedIds(children)` loop of `walkFrom`:
`step` is the recursive walk at one fuel level less. -/
def walkChildren (step : List ID × List ID → ID → Option (List ID × List ID)) :
    List ID → List ID × List ID → Option (List ID × List ID)
  | [], s => some s
  | tid :: rest, s =>
      match step s tid with
      | none => none
      | some s' => walkChildren step rest s'

/-- `walkFrom(id, do)`: fueled depth-first walk of `Order`, with the
callback inlined; the state is `(order, visited)`. -/
def walkFrom (g : List (ID × List ID)) :
    Nat → ID → List ID × List ID → Option (List ID × List ID)
  | 0, _, _ => none
  | fuel + 1, id, s =>
      match walkChildren (fun s' tid => walkFrom g fuel tid s')
          (sortedIds (childrenOf g id)) s with
      | none => none
      | some (order, visited) =>
          let order :=
            if listContains visited id then order else order ++ [id]
          some (order, setAdd visited id)

/-- The `for _, id := range d.IDs()` loop of `Order`. -/
def orderLoop (g : List (ID × List ID)) (fuel : Nat) :
    List ID → List ID × List ID → Option (List ID × List ID)
  | [], s => some s
  | id :: rest, s =>
      if listContains s.2 id then orderLoop g fuel rest s
      else
        match walkFrom g fuel id s with
        | none => none
        | some s' => orderLoop g fuel rest (s'.1, setAdd s'.2 id)

/-- Fuel for `Order`'s walk; sufficient on acyclic graphs. -/
def orderFuel {α : Type _} (d : DAG α) : Nat := d.dag.length + 2

/-- `Order()` returns the (reverse) topological order of the DAG; `none`
models the unbounded recursion the Go code performs on a cyclic graph. -/
def Order {α : Type _} (d : DAG α) : Option (List ID) :=
  (orderLoop d.dag (orderFuel d) (IDs d) ([], [])).map Prod.fst

/-- One `AddNode` call as data, for quantifying over call sequences. -/
structure Op (α : Type _) where
  id : ID
  value : α
  before : List ID
  after : List ID

/-- Apply one `AddNode` call: a failed call leaves the state as the code
does (unchanged); the unreachable panic branch also keeps the state. -/
def applyOp {α : Type _} (d : DAG α) (op : Op α) : DAG α :=
  match AddNode d op.id op.value op.before op.after with
  | some (d', _) => d'
  | none => d

/-- Run a sequence of `AddNode` calls from a given state. -/
def runOps {α : Type _} (d : DAG α) (ops : List (Op α)) : DAG α :=
  ops.foldl applyOp d

/-- A graph is acyclic when a rank function orients every edge downward
(the standard characterization: no directed cycle can exist). -/
def Acyclic (g : List (ID × List ID)) : Prop :=
  ∃ rank : ID → Nat, ∀ u v, v ∈ childrenOf g u → rank v < rank u

/-- Invariant of the `Order` walk state `(order, visited)`: the output
has no duplicates, the visited set and the output have the same members,
and every node already output has each of its children output at a
smaller index. -/
def OrderInv (g : List (ID × List ID)) (s : List ID × List ID) : Prop :=
  s.1.Nodup ∧ (∀ x, x ∈ s.2 ↔ x ∈ s.1) ∧
    ∀ u v, u ∈ s.1 → v ∈ childrenOf g u → v ∈ s.1 ∧ idxOf s.1 v < idxOf s.1 u

/-- The cycle graph A→B→C→A with a disjoint node D, built via successor
hints as in the spec's cycle round-trip scenario. -/
def cycleDag : DAG Nat :=
  runOps New
    [⟨"A", 1, [], ["B"]⟩, ⟨"B", 2, [], ["C"]⟩,
     ⟨"C", 3, [], ["A"]⟩, ⟨"D", 4, [], []⟩]

/-- Node A inserted with successor hint B, B never inserted. -/
def endpointDag : DAG Nat := applyOp New ⟨"A", 1, [], ["B"]⟩

/-- A single node A with no edges. -/
def oneNode : DAG Nat := applyOp New ⟨"A", 1, [], []⟩

/-- One insertion declaring the same successor edge A→B twice. -/
def dupEdgeDag : DAG Nat := applyOp New ⟨"A", 1, [], ["B", "B"]⟩

/-- `oneNode` after inserting a second node E. -/
def twoNode : DAG Nat := applyOp oneNode ⟨"E", 5, [], []⟩

/-- The cycle graph in its post-`Validate` state (validated flag set,
cycle set caching the detected participant). -/
def cycleDagValidated : DAG Nat :=
  { cycleDag with cycles := ["A"], validated := true }

/-- The acyclic fork A→B, A→C of the spec's ordering scenario. -/
def forkDag : DAG Nat :=
  runOps New [⟨"A", 1, [], ["B", "C"]⟩, ⟨"B", 2, [], []⟩, ⟨"C", 3, [], []⟩]

/-- A two-node graph A→B as a raw structure value. -/
def permDagA : DAG Nat :=
  { dag := [("A", ["B", "C"]), ("B", []), ("C", [])],
    values := [("A", 1), ("B", 2), ("C", 3)],
    cycles := [], validated := false }

/-- The same node and edge sets as `permDagA`, with both the adjacency
entries and A's edge list declared in a different order. -/
def permDagB : DAG Nat :=
  { dag := [("C", []), ("B", []), ("A", ["C", "B"])],
    values := [("C", 3), ("B", 2), ("A", 1)],
    cycles := [], validated := false }

/-! ### Basic lemmas about the Go-map and slice models -/

theorem listContains_iff (l : List ID) (x : ID) :
    listContains l x = true ↔ x ∈ l := by
  induction l with
  | nil => simp [listContains]
  | cons a l ih =>
      simp only [listContains, List.mem_cons]
      by_cases h : a = x
      · simp [h]
      · simp only [if_neg h, ih]
        constructor
        · exact Or.inr
        · rintro (rfl | hx)
          · exact absurd rfl h
          · exact hx

theorem mem_setAdd (s : List ID) (id x : ID) :
    x ∈ setAdd s id ↔ x = id ∨ x ∈ s := by
  unfold setAdd
  by_cases h : listContains s id = true
  · rw [if_pos h]
    rw [listContains_iff] at h
    constructor
    · exact Or.inr
    · rintro (rfl | hx)
      · exact h
      · exact hx
  · rw [if_neg h]
    simp [List.mem_cons]

theorem lookup_isSome_iff_mem_keys {β : Type _} (m : List (ID × β)) (k : ID) :
    (lookupList m k).isSome = true ↔ k ∈ keys m := by
  induction m with
  | nil => simp [lookupList, keys]
  | cons p rest ih =>
      obtain ⟨k', v⟩ := p
      simp only [lookupList, keys, List.map_cons, List.mem_cons]
      by_cases h : k' = k
      · simp [h]
      · simp only [if_neg h]
        rw [ih]
        constructor
        · exact fun hx => Or.inr hx
        · rintro (rfl | hx)
          · exact absurd rfl h
          · exact hx

theorem lookup_setList_self {β : Type _} (m : List (ID × β)) (k : ID) (v : β) :
    lookupList (setList m k v) k = some v := by
  induction m with
  | nil => simp [setList, lookupList]
  | cons p rest ih =>
      obtain ⟨k', v'⟩ := p
      by_cases h : k' = k
      · simp [setList, if_pos h, lookupList]
      · simp [setList, if_neg h, lookupList, h, ih]

theorem lookup_setList_ne {β : Type _} (m : List (ID × β)) (k k' : ID) (v : β)
    (h : k' ≠ k) : lookupList (setList m k v) k' = lookupList m k' := by
  induction m with
  | nil =>
      simp only [setList, lookupList]
      rw [if_neg (fun hh => h hh.symm)]
  | cons p rest ih =>
      obtain ⟨a, b⟩ := p
      by_cases ha : a = k
      · subst ha
        simp only [setList, if_pos rfl, lookupList]
        rw [if_neg (fun hh => h hh.symm), if_neg (fun hh => h hh.symm)]
      · simp only [setList, if_neg ha, lookupList]
        by_cases hk' : a = k'
        · rw [if_pos hk', if_pos hk']
        · rw [if_neg hk', if_neg hk', ih]

theorem keys_setList {β : Type _} (m : List (ID × β)) (k : ID) (v : β) :
    keys (setList m k v) = if k ∈ keys m then keys m else keys m ++ [k] := by
  induction m with
  | nil => simp [setList, keys]
  | cons p rest ih =>
      obtain ⟨a, b⟩ := p
      by_cases h : a = k
      · subst h
        simp [setList, keys]
      · simp only [setList, if_neg h, keys, List.map_cons] at ih ⊢
        rw [ih]
        by_cases hk : k ∈ List.map Prod.fst rest
        · rw [if_pos hk, if_pos (List.mem_cons_of_mem a hk)]
        · have hk2 : k ∉ a :: List.map Prod.fst rest := by
            intro hmem
            rcases List.mem_cons.mp hmem with rfl | hx
            · exact h rfl
            · exact hk hx
          rw [if_neg hk, if_neg hk2, List.cons_append]

theorem mem_keys_setList {β : Type _} (m : List (ID × β)) (k x : ID) (v : β) :
    x ∈ keys (setList m k v) ↔ x ∈ keys m ∨ x = k := by
  rw [keys_setList]
  by_cases h : k ∈ keys m
  · rw [if_pos h]
    constructor
    · exact Or.inl
    · rintro (hx | rfl)
      · exact hx
      · exact h
  · rw [if_neg h]
    simp [List.mem_append]

theorem keys_setList_nodup {β : Type _} (m : List (ID × β)) (k : ID) (v : β)
    (h : (keys m).Nodup) : (keys (setList m k v)).Nodup := by
  rw [keys_setList]
  by_cases hk : k ∈ keys m
  · rw [if_pos hk]; exact h
  · rw [if_neg hk]
    simpa [List.nodup_append] using ⟨h, fun hx => hk hx⟩

theorem lookup_mem {β : Type _} (m : List (ID × β)) (k : ID) (v : β)
    (h : lookupList m k = some v) : (k, v) ∈ m := by
  induction m with
  | nil => simp [lookupList] at h
  | cons p rest ih =>
      obtain ⟨a, b⟩ := p
      by_cases ha : a = k
      · subst ha
        have hv : lookupList ((a, b) :: rest) a = some b := by
          simp [lookupList]
        rw [hv] at h
        cases h
        exact List.mem_cons_self _ _
      · simp only [lookupList, if_neg ha] at h
        exact List.mem_cons_of_mem _ (ih h)

/-! ### `sortedIds` lemmas -/

theorem charListLt_iff (l₁ l₂ : List Char) :
    charListLt l₁ l₂ = true ↔ l₁ < l₂ := by
  show charListLt l₁ l₂ = true ↔ List.Lex (· < ·) l₁ l₂
  induction l₁ generalizing l₂ with
  | nil =>
      cases l₂ with
      | nil =>
          simp only [charListLt]
          constructor
          · intro h
            cases h
          · intro h
            cases h
      | cons b bs =>
          simp only [charListLt]
          exact ⟨fun _ => List.Lex.nil, fun _ => trivial⟩
  | cons a as ih =>
      cases l₂ with
      | nil =>
          simp only [charListLt]
          constructor
          · intro h
            cases h
          · intro h
            cases h
      | cons b bs =>
          rw [charListLt]
          by_cases hab : a < b
          · rw [if_pos hab]
            exact ⟨fun _ => List.Lex.rel hab, fun _ => rfl⟩
          · rw [if_neg hab]
            by_cases hba : b < a
            · rw [if_pos hba]
              constructor
              · intro h
                cases h
              · intro h
                cases h with
                | cons h' => exact absurd hba (lt_irrefl _)
                | rel h' => exact absurd h' hab
            · have hba2 : b = a := by
                rcases lt_trichotomy a b with h | h | h
                · exact absurd h hab
                · exact h.symm
                · exact absurd h hba
              subst hba2
              rw [if_neg hba, ih]
              constructor
              · exact fun h => List.Lex.cons h
              · intro h
                cases h with
                | cons h' => exact h'
                | rel h' => exact absurd h' hab

theorem idLt_iff (a b : ID) : idLt a b = true ↔ a < b := by
  rw [String.lt_iff_toList_lt]
  exact charListLt_iff a.data b.data

theorem insertSorted_perm (x : ID) (l : List ID) :
    List.Perm (insertSorted x l) (x :: l) := by
  induction l with
  | nil => simp [insertSorted]
  | cons y ys ih =>
      rw [insertSorted]
      by_cases h : idLt y x = true
      · rw [if_pos h]
        exact (ih.cons y).trans (List.Perm.swap x y ys)
      · rw [if_neg h]

theorem mem_insertSorted (x a : ID) (l : List ID) :
    a ∈ insertSorted x l ↔ a = x ∨ a ∈ l := by
  rw [(insertSorted_perm x l).mem_iff]
  simp [List.mem_cons]

theorem insertSorted_sorted (x : ID) (l : List ID)
    (h : l.Sorted (· ≤ ·)) : (insertSorted x l).Sorted (· ≤ ·) := by
  induction l with
  | nil => simp [insertSorted]
  | cons y ys ih =>
      rw [List.sorted_cons] at h
      obtain ⟨hy, hys⟩ := h
      rw [insertSorted]
      by_cases hlt : idLt y x = true
      · rw [if_pos hlt, List.sorted_cons]
        refine ⟨?_, ih hys⟩
        intro b hb
        rw [mem_insertSorted] at hb
        rcases hb with rfl | hb
        · exact le_of_lt ((idLt_iff y b).mp hlt)
        · exact hy b hb
      · rw [if_neg hlt, List.sorted_cons, List.sorted_cons]
        have hxy : x ≤ y :=
          le_of_not_lt (fun hc => hlt ((idLt_iff y x).mpr hc))
        refine ⟨?_, hy, hys⟩
        intro b hb
        rcases List.mem_cons.mp hb with rfl | hb
        · exact hxy
        · exact le_trans hxy (hy b hb)

theorem sortedIds_perm (l : List ID) : List.Perm (sortedIds l) l := by
  induction l with
  | nil => rfl
  | cons x xs ih =>
      unfold sortedIds at ih ⊢
      rw [List.foldr_cons]
      exact (insertSorted_perm x _).trans (ih.cons x)

theorem sortedIds_sorted (l : List ID) : (sortedIds l).Sorted (· ≤ ·) := by
  induction l with
  | nil => simp [sortedIds]
  | cons x xs ih =>
      unfold sortedIds at ih ⊢
      rw [List.foldr_cons]
      exact insertSorted_sorted x _ ih

theorem mem_sortedIds (l : List ID) (x : ID) :
    x ∈ sortedIds l ↔ x ∈ l :=
  (sortedIds_perm l).mem_iff

theorem sortedIds_nodup (l : List ID) (h : l.Nodup) : (sortedIds l).Nodup :=
  (sortedIds_perm l).nodup_iff.mpr h

theorem sortedIds_eq_of_mem_iff (l₁ l₂ : List ID)
    (h₁ : l₁.Nodup) (h₂ : l₂.Nodup) (h : ∀ x, x ∈ l₁ ↔ x ∈ l₂) :
    sortedIds l₁ = sortedIds l₂ := by
  have hperm : List.Perm (sortedIds l₁) (sortedIds l₂) := by
    refine ((sortedIds_perm l₁).trans ?_).trans (sortedIds_perm l₂).symm
    exact (List.perm_ext_iff_of_nodup h₁ h₂).mpr h
  exact List.eq_of_perm_of_sorted hperm (sortedIds_sorted l₁) (sortedIds_sorted l₂)

/-! ### `idxOf` lemmas -/

theorem idxOf_append_left (l l' : List ID) (x : ID) (h : x ∈ l) :
    idxOf (l ++ l') x = idxOf l x := by
  induction l with
  | nil => simp at h
  | cons a as ih =>
      rcases List.mem_cons.mp h with rfl | hx
      · simp [idxOf]
      · by_cases ha : a = x
        · simp [idxOf, ha]
        · simp [idxOf, ha, ih hx]

theorem idxOf_append_self (l : List ID) (x : ID) (h : x ∉ l) :
    idxOf (l ++ [x]) x = l.length := by
  induction l with
  | nil => simp [idxOf]
  | cons a as ih =>
      have ha : a ≠ x := fun hh => h (hh ▸ List.mem_cons_self a as)
      simp only [List.cons_append, idxOf, if_neg ha, List.length_cons]
      show idxOf (as ++ [x]) x + 1 = as.length + 1
      rw [ih (fun hx => h (List.mem_cons_of_mem a hx))]

theorem idxOf_lt_length (l : List ID) (x : ID) (h : x ∈ l) :
    idxOf l x < l.length := by
  induction l with
  | nil => simp at h
  | cons a as ih =>
      by_cases ha : a = x
      · simp [idxOf, ha]
      · rcases List.mem_cons.mp h with rfl | hx
        · exact absurd rfl ha
        · simp only [idxOf, if_neg ha, List.length_cons]
          exact Nat.succ_lt_succ (ih hx)

/-! ### Lemmas about `addEdge` and `ensureEntry` -/

section AddEdgeLemmas

variable {α : Type _}

theorem addEdge_none_iff (d : DAG α) (f t : ID) :
    addEdge d f t = none ↔ lookupList d.dag f = none := by
  unfold addEdge
  cases hl : lookupList d.dag f <;> simp

theorem addEdge_eq_of_lookup (d : DAG α) (f t : ID) (l : List ID)
    (h : lookupList d.dag f = some l) :
    addEdge d f t =
      some { d with
             dag := setList d.dag f (if listContains l t then l else l ++ [t]) } := by
  unfold addEdge
  rw [h]
  by_cases hc : listContains l t = true
  · simp [hc]
  · simp [hc]

theorem addEdge_fields (d d' : DAG α) (f t : ID) (h : addEdge d f t = some d') :
    d'.values = d.values ∧ d'.cycles = d.cycles ∧ d'.validated = d.validated := by
  unfold addEdge at h
  cases hl : lookupList d.dag f <;> rw [hl] at h
  · cases h
  · cases h
    exact ⟨rfl, rfl, rfl⟩

theorem keys_addEdge (d d' : DAG α) (f t : ID) (h : addEdge d f t = some d') :
    keys d'.dag = keys d.dag := by
  unfold addEdge at h
  cases hl : lookupList d.dag f <;> rw [hl] at h
  · cases h
  · cases h
    have hf : f ∈ keys d.dag := by
      rw [← lookup_isSome_iff_mem_keys, hl]
      rfl
    simp only [keys_setList, if_pos hf]

theorem childrenOf_addEdge (d d' : DAG α) (f t : ID)
    (h : addEdge d f t = some d') (u : ID) :
    childrenOf d'.dag u =
      if u = f then
        (if listContains (childrenOf d.dag f) t then childrenOf d.dag f
         else childrenOf d.dag f ++ [t])
      else childrenOf d.dag u := by
  unfold addEdge at h
  cases hl : lookupList d.dag f <;> rw [hl] at h
  · cases h
  · cases h
    rename_i l
    have hcf : childrenOf d.dag f = l := by simp [childrenOf, hl]
    by_cases hu : u = f
    · subst hu
      rw [if_pos rfl, hcf]
      by_cases hc : listContains l t = true
      · simp [childrenOf, hc, lookup_setList_self]
      · simp [childrenOf, hc, lookup_setList_self]
    · rw [if_neg hu]
      simp [childrenOf, lookup_setList_ne _ _ _ _ hu]

theorem childrenOf_addEdge_append (d d' : DAG α) (f t : ID)
    (h : addEdge d f t = some d') (u : ID) :
    ∃ s, childrenOf d'.dag u = childrenOf d.dag u ++ s := by
  rw [childrenOf_addEdge d d' f t h u]
  by_cases hu : u = f
  · rw [if_pos hu]
    by_cases hc : listContains (childrenOf d.dag f) t = true
    · exact ⟨[], by rw [if_pos hc, List.append_nil, hu]⟩
    · exact ⟨[t], by rw [if_neg hc, hu]⟩
  · exact ⟨[], by rw [if_neg hu, List.append_nil]⟩

theorem mem_childrenOf_addEdge_self (d d' : DAG α) (f t : ID)
    (h : addEdge d f t = some d') : t ∈ childrenOf d'.dag f := by
  rw [childrenOf_addEdge d d' f t h f, if_pos rfl]
  by_cases hc : listContains (childrenOf d.dag f) t = true
  · rw [if_pos hc]
    exact (listContains_iff _ _).mp hc
  · rw [if_neg hc]
    exact List.mem_append_right _ (List.mem_singleton.mpr rfl)

theorem childrenNodup_addEdge (d d' : DAG α) (f t : ID)
    (h : addEdge d f t = some d') (hn : ∀ u, (childrenOf d.dag u).Nodup) :
    ∀ u, (childrenOf d'.dag u).Nodup := by
  intro u
  rw [childrenOf_addEdge d d' f t h u]
  by_cases hu : u = f
  · rw [if_pos hu]
    by_cases hc : listContains (childrenOf d.dag f) t = true
    · rw [if_pos hc]; exact hn f
    · rw [if_neg hc]
      have ht : t ∉ childrenOf d.dag f := by
        intro hm
        exact hc ((listContains_iff _ _).mpr hm)
      simpa [List.nodup_append] using ⟨hn f, fun hm => ht hm⟩
  · rw [if_neg hu]; exact hn u

theorem ensureEntry_childrenOf (d : DAG α) (x u : ID) :
    childrenOf (ensureEntry d x).dag u = childrenOf d.dag u := by
  unfold ensureEntry
  by_cases h : (lookupList d.dag x).isNone = true
  · rw [if_pos h]
    by_cases hu : u = x
    · subst hu
      have hx : lookupList d.dag u = none := Option.isNone_iff_eq_none.mp h
      simp [childrenOf, lookup_setList_self, hx]
    · simp [childrenOf, lookup_setList_ne _ _ _ _ hu]
  · rw [if_neg h]

theorem ensureEntry_fields (d : DAG α) (x : ID) :
    (ensureEntry d x).values = d.values ∧ (ensureEntry d x).cycles = d.cycles ∧
      (ensureEntry d x).validated = d.validated := by
  unfold ensureEntry
  by_cases h : (lookupList d.dag x).isNone = true
  · rw [if_pos h]
    exact ⟨rfl, rfl, rfl⟩
  · rw [if_neg h]
    exact ⟨rfl, rfl, rfl⟩

theorem mem_keys_ensureEntry (d : DAG α) (x u : ID) :
    u ∈ keys (ensureEntry d x).dag ↔ u ∈ keys d.dag ∨ u = x := by
  unfold ensureEntry
  by_cases h : (lookupList d.dag x).isNone = true
  · rw [if_pos h]
    exact mem_keys_setList d.dag x u []
  · rw [if_neg h]
    constructor
    · exact Or.inl
    · rintro (hu | rfl)
      · exact hu
      · rw [← lookup_isSome_iff_mem_keys, Option.isSome_iff_ne_none]
        simpa using h

theorem keys_ensureEntry_nodup (d : DAG α) (x : ID)
    (h : (keys d.dag).Nodup) : (keys (ensureEntry d x).dag).Nodup := by
  unfold ensureEntry
  by_cases hx : (lookupList d.dag x).isNone = true
  · rw [if_pos hx]
    exact keys_setList_nodup d.dag x [] h
  · rw [if_neg hx]
    exact h

end AddEdgeLemmas

/-! ### Lemmas about `addEdges`, the `before` loop and `AddNode` -/

section AddNodeLemmas

variable {α : Type _}

theorem growth_trans {g1 g2 g3 : List (ID × List ID)}
    (h1 : ∀ u, ∃ s, childrenOf g2 u = childrenOf g1 u ++ s)
    (h2 : ∀ u, ∃ s, childrenOf g3 u = childrenOf g2 u ++ s) :
    ∀ u, ∃ s, childrenOf g3 u = childrenOf g1 u ++ s := by
  intro u
  obtain ⟨s1, hs1⟩ := h1 u
  obtain ⟨s2, hs2⟩ := h2 u
  exact ⟨s1 ++ s2, by rw [hs2, hs1, List.append_assoc]⟩

theorem mem_of_growth {g1 g2 : List (ID × List ID)} {u v : ID}
    (h : ∀ w, ∃ s, childrenOf g2 w = childrenOf g1 w ++ s)
    (hv : v ∈ childrenOf g1 u) : v ∈ childrenOf g2 u := by
  obtain ⟨s, hs⟩ := h u
  rw [hs]
  exact List.mem_append_left s hv

theorem addEdges_props (f : ID) (l : List ID) :
    ∀ d : DAG α, f ∈ keys d.dag →
      ∃ d', addEdges d f l = some d' ∧
        keys d'.dag = keys d.dag ∧
        d'.values = d.values ∧ d'.cycles = d.cycles ∧
        d'.validated = d.validated ∧
        (∀ u, ∃ s, childrenOf d'.dag u = childrenOf d.dag u ++ s) ∧
        (∀ t ∈ l, t ∈ childrenOf d'.dag f) ∧
        ((∀ u, (childrenOf d.dag u).Nodup) → ∀ u, (childrenOf d'.dag u).Nodup) := by
  induction l with
  | nil =>
      intro d hf
      refine ⟨d, rfl, rfl, rfl, rfl, rfl, ?_, ?_, ?_⟩
      · exact fun u => ⟨[], (List.append_nil _).symm⟩
      · intro t ht
        simp at ht
      · exact fun hn => hn
  | cons t rest ih =>
      intro d hf
      have hne : addEdge d f t ≠ none := by
        rw [Ne, addEdge_none_iff]
        intro hnone
        rw [← lookup_isSome_iff_mem_keys, hnone] at hf
        cases hf
      cases he : addEdge d f t with
      | none => exact absurd he hne
      | some d1 =>
          have hkeys1 := keys_addEdge d d1 f t he
          have hfields1 := addEdge_fields d d1 f t he
          have hf1 : f ∈ keys d1.dag := by rw [hkeys1]; exact hf
          obtain ⟨d', hrun, hkeys, hvals, hcyc, hvalid, hgrow, hmem, hnodup⟩ :=
            ih d1 hf1
          have hgrow1 := childrenOf_addEdge_append d d1 f t he
          refine ⟨d', ?_, ?_, ?_, ?_, ?_, ?_, ?_, ?_⟩
          · rw [addEdges, he]
            exact hrun
          · rw [hkeys, hkeys1]
          · rw [hvals, hfields1.1]
          · rw [hcyc, hfields1.2.1]
          · rw [hvalid, hfields1.2.2]
          · exact growth_trans hgrow1 hgrow
          · intro x hx
            rcases List.mem_cons.mp hx with rfl | hx
            · exact mem_of_growth hgrow (mem_childrenOf_addEdge_self d d1 f x he)
            · exact hmem x hx
          · intro hn
            exact hnodup (childrenNodup_addEdge d d1 f t he hn)

theorem foldl_addBeforeStep_props (id : ID) (l : List ID) :
    ∀ d : DAG α,
      ∃ d', l.foldl (addBeforeStep id) (some d) = some d' ∧
        (∀ x, x ∈ keys d'.dag ↔ x ∈ keys d.dag ∨ x ∈ l) ∧
        d'.values = d.values ∧ d'.cycles = d.cycles ∧
        d'.validated = d.validated ∧
        (∀ u, ∃ s, childrenOf d'.dag u = childrenOf d.dag u ++ s) ∧
        (∀ b ∈ l, id ∈ childrenOf d'.dag b) ∧
        ((∀ u, (childrenOf d.dag u).Nodup) → ∀ u, (childrenOf d'.dag u).Nodup) ∧
        ((keys d.dag).Nodup → (keys d'.dag).Nodup) := by
  induction l with
  | nil =>
      intro d
      refine ⟨d, rfl, ?_, rfl, rfl, rfl, ?_, ?_, ?_, ?_⟩
      · intro x
        simp
      · exact fun u => ⟨[], (List.append_nil _).symm⟩
      · intro b hb
        simp at hb
      · exact fun hn => hn
      · exact fun hn => hn
  | cons b rest ih =>
      intro d
      have hb : b ∈ keys (ensureEntry d b).dag :=
        (mem_keys_ensureEntry d b b).mpr (Or.inr rfl)
      have hne : addEdge (ensureEntry d b) b id ≠ none := by
        rw [Ne, addEdge_none_iff]
        intro hnone
        rw [← lookup_isSome_iff_mem_keys, hnone] at hb
        cases hb
      cases he : addEdge (ensureEntry d b) b id with
      | none => exact absurd he hne
      | some d1 =>
          have hkeys1 := keys_addEdge (ensureEntry d b) d1 b id he
          have hfieldsE := ensureEntry_fields d b
          have hfields1 := addEdge_fields (ensureEntry d b) d1 b id he
          obtain ⟨d', hrun, hkeys, hvals, hcyc, hvalid, hgrow, hmem, hnodup, hknodup⟩ :=
            ih d1
          have hgrowE : ∀ u, ∃ s,
              childrenOf (ensureEntry d b).dag u = childrenOf d.dag u ++ s :=
            fun u => ⟨[], by rw [ensureEntry_childrenOf, List.append_nil]⟩
          have hgrow1 : ∀ u, ∃ s,
              childrenOf d1.dag u = childrenOf d.dag u ++ s :=
            growth_trans hgrowE (childrenOf_addEdge_append _ d1 b id he)
          refine ⟨d', ?_, ?_, ?_, ?_, ?_, ?_, ?_, ?_, ?_⟩
          · rw [List.foldl_cons]
            show rest.foldl (addBeforeStep id) (addBeforeStep id (some d) b) = some d'
            rw [show addBeforeStep id (some d) b = some d1 from by
              rw [addBeforeStep]; exact he]
            exact hrun
          · intro x
            rw [hkeys x, hkeys1, mem_keys_ensureEntry]
            constructor
            · rintro ((hx | rfl) | hx)
              · exact Or.inl hx
              · exact Or.inr (List.mem_cons_self _ _)
              · exact Or.inr (List.mem_cons_of_mem _ hx)
            · rintro (hx | hx)
              · exact Or.inl (Or.inl hx)
              · rcases List.mem_cons.mp hx with rfl | hx
                · exact Or.inl (Or.inr rfl)
                · exact Or.inr hx
          · rw [hvals, hfields1.1, hfieldsE.1]
          · rw [hcyc, hfields1.2.1, hfieldsE.2.1]
          · rw [hvalid, hfields1.2.2, hfieldsE.2.2]
          · exact growth_trans hgrow1 hgrow
          · intro x hx
            rcases List.mem_cons.mp hx with rfl | hx
            · refine mem_of_growth hgrow ?_
              exact mem_childrenOf_addEdge_self _ d1 x id he
            · exact hmem x hx
          · intro hn
            refine hnodup (childrenNodup_addEdge _ d1 b id he ?_)
            intro u
            rw [ensureEntry_childrenOf]
            exact hn u
          · intro hn
            refine hknodup ?_
            rw [hkeys1]
            exact keys_ensureEntry_nodup d b hn

/-- Success shape of `AddNode`: everything the later claims need about a
single successful insertion. -/
theorem AddNode_success (d : DAG α) (id : ID) (v : α) (before after : List ID)
    (hdup : lookupList d.values id = none) :
    ∃ d', AddNode d id v before after = some (d', none) ∧
      (∀ x, x ∈ keys d'.dag ↔ (x ∈ keys d.dag ∨ x ∈ before ∨ x = id)) ∧
      d'.values = setList d.values id v ∧
      d'.cycles = d.cycles ∧
      d'.validated = false ∧
      (∀ u, ∃ s, childrenOf d'.dag u = childrenOf d.dag u ++ s) ∧
      (∀ b ∈ before, id ∈ childrenOf d'.dag b) ∧
      (∀ t ∈ after, t ∈ childrenOf d'.dag id) ∧
      ((∀ u, (childrenOf d.dag u).Nodup) → ∀ u, (childrenOf d'.dag u).Nodup) ∧
      ((keys d.dag).Nodup → (keys d'.dag).Nodup) := by
  have hd : ¬ ((lookupList d.values id).isSome = true) := by
    rw [hdup]
    simp
  obtain ⟨d1, hfold, hkeys1, hvals1, hcyc1, hvalid1, hgrow1, hbmem, hnodup1, hknodup1⟩ :=
    foldl_addBeforeStep_props (α := α) id before d
  have hid : id ∈ keys (ensureEntry d1 id).dag :=
    (mem_keys_ensureEntry d1 id id).mpr (Or.inr rfl)
  obtain ⟨d3, hedges, hkeys3, hvals3, hcyc3, hvalid3, hgrow3, hamem, hnodup3⟩ :=
    addEdges_props (α := α) id after (ensureEntry d1 id) hid
  have hfieldsE := ensureEntry_fields d1 id
  have hgrowE : ∀ u, ∃ s,
      childrenOf (ensureEntry d1 id).dag u = childrenOf d1.dag u ++ s :=
    fun u => ⟨[], by rw [ensureEntry_childrenOf, List.append_nil]⟩
  have hgrowAll : ∀ u, ∃ s, childrenOf d3.dag u = childrenOf d.dag u ++ s :=
    growth_trans hgrow1 (growth_trans hgrowE hgrow3)
  refine ⟨{ d3 with values := setList d3.values id v, validated := false },
    ?_, ?_, ?_, ?_, rfl, ?_, ?_, ?_, ?_, ?_⟩
  · unfold AddNode
    rw [if_neg hd, hfold]
    show (match addEdges (ensureEntry d1 id) id after with
          | none => none
          | some d =>
              some ({ d with values := setList d.values id v,
                             validated := false }, none)) =
        some ({ d3 with values := setList d3.values id v,
                        validated := false }, none)
    rw [hedges]
  · intro x
    show x ∈ keys d3.dag ↔ _
    rw [hkeys3]
    rw [show keys (ensureEntry d1 id).dag =
          keys (ensureEntry d1 id).dag from rfl]
    constructor
    · intro hx
      rcases (mem_keys_ensureEntry d1 id x).mp hx with hx | rfl
      · rcases (hkeys1 x).mp hx with hx | hx
        · exact Or.inl hx
        · exact Or.inr (Or.inl hx)
      · exact Or.inr (Or.inr rfl)
    · intro hx
      refine (mem_keys_ensureEntry d1 id x).mpr ?_
      rcases hx with hx | hx | rfl
      · exact Or.inl ((hkeys1 x).mpr (Or.inl hx))
      · exact Or.inl ((hkeys1 x).mpr (Or.inr hx))
      · exact Or.inr rfl
  · show setList d3.values id v = setList d.values id v
    rw [hvals3, hfieldsE.1, hvals1]
  · show d3.cycles = d.cycles
    rw [hcyc3, hfieldsE.2.1, hcyc1]
  · exact hgrowAll
  · intro b hb
    exact mem_of_growth (growth_trans hgrowE hgrow3) (hbmem b hb)
  · intro t ht
    exact hamem t ht
  · intro hn
    refine hnodup3 ?_
    intro u
    rw [ensureEntry_childrenOf]
    exact hnodup1 hn u
  · intro hn
    show (keys d3.dag).Nodup
    rw [hkeys3]
    exact keys_ensureEntry_nodup d1 id (hknodup1 hn)

/-- `AddNode` with an already-bound id: the duplicate check fires before
any mutation, returning the state unchanged. -/
theorem AddNode_duplicate (d : DAG α) (id : ID) (v : α) (before after : List ID)
    (h : (lookupList d.values id).isSome = true) :
    AddNode d id v before after = some (d, some DagError.ErrDuplicateNode) := by
  unfold AddNode
  rw [if_pos h]

/-- `AddNode` never reaches the `addEdge` panic. -/
theorem AddNode_isSome (d : DAG α) (id : ID) (v : α) (before after : List ID) :
    (AddNode d id v before after).isSome = true := by
  cases hdup : lookupList d.values id with
  | some w =>
      rw [AddNode_duplicate d id v before after (by rw [hdup]; rfl)]
      rfl
  | none =>
      obtain ⟨d', hrun, -⟩ := AddNode_success d id v before after hdup
      rw [hrun]
      rfl

end AddNodeLemmas

/-! ### Lemmas about sequences of `AddNode` calls -/

section RunOpsLemmas

variable {α : Type _}

theorem applyOp_growth (d : DAG α) (op : Op α) :
    ∀ u, ∃ s, childrenOf (applyOp d op).dag u = childrenOf d.dag u ++ s := by
  unfold applyOp
  cases hdup : lookupList d.values op.id with
  | some w =>
      rw [AddNode_duplicate _ _ _ _ _ (by rw [hdup]; rfl)]
      exact fun u => ⟨[], (List.append_nil _).symm⟩
  | none =>
      obtain ⟨d', hrun, -, -, -, -, hgrow, -, -, -, -⟩ :=
        AddNode_success d op.id op.value op.before op.after hdup
      rw [hrun]
      exact hgrow

theorem applyOp_keys_mono (d : DAG α) (op : Op α) (x : ID)
    (hx : x ∈ keys d.dag) : x ∈ keys (applyOp d op).dag := by
  unfold applyOp
  cases hdup : lookupList d.values op.id with
  | some w =>
      rw [AddNode_duplicate _ _ _ _ _ (by rw [hdup]; rfl)]
      exact hx
  | none =>
      obtain ⟨d', hrun, hkeys, -⟩ :=
        AddNode_success d op.id op.value op.before op.after hdup
      rw [hrun]
      exact (hkeys x).mpr (Or.inl hx)

theorem applyOp_wf (d : DAG α) (op : Op α)
    (h1 : (keys d.dag).Nodup) (h2 : ∀ u, (childrenOf d.dag u).Nodup) :
    (keys (applyOp d op).dag).Nodup ∧
      ∀ u, (childrenOf (applyOp d op).dag u).Nodup := by
  unfold applyOp
  cases hdup : lookupList d.values op.id with
  | some w =>
      rw [AddNode_duplicate _ _ _ _ _ (by rw [hdup]; rfl)]
      exact ⟨h1, h2⟩
  | none =>
      obtain ⟨d', hrun, -, -, -, -, -, -, -, hnodup, hknodup⟩ :=
        AddNode_success d op.id op.value op.before op.after hdup
      rw [hrun]
      exact ⟨hknodup h1, hnodup h2⟩

theorem runOps_growth (ops : List (Op α)) :
    ∀ d : DAG α, ∀ u, ∃ s,
      childrenOf (runOps d ops).dag u = childrenOf d.dag u ++ s := by
  induction ops with
  | nil => exact fun d u => ⟨[], (List.append_nil _).symm⟩
  | cons op rest ih =>
      intro d
      exact growth_trans (applyOp_growth d op) (ih (applyOp d op))

theorem runOps_keys_mono (ops : List (Op α)) :
    ∀ (d : DAG α) (x : ID), x ∈ keys d.dag → x ∈ keys (runOps d ops).dag := by
  induction ops with
  | nil => exact fun d x hx => hx
  | cons op rest ih =>
      intro d x hx
      exact ih (applyOp d op) x (applyOp_keys_mono d op x hx)

theorem runOps_wf (ops : List (Op α)) :
    ∀ d : DAG α, (keys d.dag).Nodup → (∀ u, (childrenOf d.dag u).Nodup) →
      (keys (runOps d ops).dag).Nodup ∧
        ∀ u, (childrenOf (runOps d ops).dag u).Nodup := by
  induction ops with
  | nil => exact fun d h1 h2 => ⟨h1, h2⟩
  | cons op rest ih =>
      intro d h1 h2
      obtain ⟨h1', h2'⟩ := applyOp_wf d op h1 h2
      exact ih (applyOp d op) h1' h2'

theorem runOps_append (d : DAG α) (l1 l2 : List (Op α)) :
    runOps d (l1 ++ l2) = runOps (runOps d l1) l2 :=
  List.foldl_append _ _ _ _

theorem runOps_New_wf (ops : List (Op α)) :
    (keys (runOps New ops).dag).Nodup ∧
      ∀ u, (childrenOf (runOps New ops).dag u).Nodup := by
  refine runOps_wf ops New ?_ ?_
  · simp [New, keys]
  · intro u
    simp [New, childrenOf, lookupList]

end RunOpsLemmas

/-! ### Totality and success lemmas for the validator's DFS -/

section ValidateLemmas

theorem hasCycleChildren_isSome
    (step : List ID → ID → Option (List ID × Bool × String)) (l : List ID) :
    ∀ cycles, (∀ c tid, tid ∈ l → (step c tid).isSome = true) →
      (hasCycleChildren step cycles l).isSome = true := by
  induction l with
  | nil =>
      intro cycles _
      rfl
  | cons tid rest ihl =>
      intro cycles h
      rw [hasCycleChildren]
      cases hs : step cycles tid with
      | none =>
          have := h cycles tid (List.mem_cons_self _ _)
          rw [hs] at this
          cases this
      | some res =>
          obtain ⟨cycles', found, r⟩ := res
          cases found with
          | true => rfl
          | false => exact ihl cycles' (fun c t ht => h c t (List.mem_cons_of_mem _ ht))

theorem hasCycleChildren_all_false
    (step : List ID → ID → Option (List ID × Bool × String)) (l : List ID) :
    ∀ cycles, (∀ c tid, tid ∈ l → step c tid = some (c, false, "")) →
      hasCycleChildren step cycles l = some (cycles, false, "") := by
  induction l with
  | nil =>
      intro cycles _
      rfl
  | cons tid rest ihl =>
      intro cycles h
      rw [hasCycleChildren, h cycles tid (List.mem_cons_self _ _)]
      exact ihl cycles (fun c t ht => h c t (List.mem_cons_of_mem _ ht))

theorem hasCycle_nil_children (g : List (ID × List ID)) (fuel : Nat)
    (hf : 1 ≤ fuel) (cycles branch : List ID) (reason : String) :
    hasCycle g fuel cycles branch [] reason = some (cycles, false, "") := by
  cases fuel with
  | zero => omega
  | succ f =>
      rw [hasCycle]
      have hfind : branch.find? (fun bid => listContains [] bid) = none := by
        rw [List.find?_eq_none]
        intro x _ hx
        cases hx
      rw [hfind]
      rfl

theorem hasCycle_isSome (g : List (ID × List ID)) (fuel : Nat) :
    ∀ (cycles branch children : List ID) (reason : String),
      ((keys g).toFinset \ branch.toFinset).card + 2 ≤ fuel →
      (hasCycle g fuel cycles branch children reason).isSome = true := by
  induction fuel using Nat.strong_induction_on with
  | _ fuel ih =>
      intro cycles branch children reason hfuel
      cases fuel with
      | zero => omega
      | succ f =>
          rw [hasCycle]
          cases hfind : branch.find? (fun bid => listContains children bid) with
          | some bid => rfl
          | none =>
              have hnotb : ∀ tid ∈ children, tid ∉ branch := by
                intro tid htid hb
                have hne := List.find?_eq_none.mp hfind tid hb
                exact hne ((listContains_iff children tid).mpr htid)
              apply hasCycleChildren_isSome
              intro c tid htid
              have htidc : tid ∈ children := (mem_sortedIds children tid).mp htid
              by_cases hk : tid ∈ keys g
              · apply ih f (Nat.lt_succ_self f)
                have hsub : (keys g).toFinset \ (branch ++ [tid]).toFinset ⊂
                    (keys g).toFinset \ branch.toFinset := by
                  have hss : (keys g).toFinset \ (branch ++ [tid]).toFinset ⊆
                      (keys g).toFinset \ branch.toFinset := by
                    apply Finset.sdiff_subset_sdiff (Finset.Subset.refl _)
                    intro x hx
                    rw [List.mem_toFinset] at hx
                    rw [List.mem_toFinset]
                    exact List.mem_append_left _ hx
                  rw [Finset.ssubset_iff_of_subset hss]
                  refine ⟨tid, ?_, ?_⟩
                  · rw [Finset.mem_sdiff, List.mem_toFinset, List.mem_toFinset]
                    exact ⟨hk, hnotb tid htidc⟩
                  · rw [Finset.mem_sdiff, List.mem_toFinset, List.mem_toFinset]
                    rintro ⟨-, hcon⟩
                    exact hcon (List.mem_append_right _ (List.mem_singleton.mpr rfl))
                have hlt := Finset.card_lt_card hsub
                omega
              · have hc : childrenOf g tid = [] := by
                  unfold childrenOf
                  cases hl : lookupList g tid with
                  | none => rfl
                  | some l0 =>
                      exfalso
                      apply hk
                      rw [← lookup_isSome_iff_mem_keys, hl]
                      rfl
                rw [hc, hasCycle_nil_children g f (by omega)]
                rfl

theorem hasCycle_acyclic (g : List (ID × List ID)) (rank : ID → Nat)
    (hrank : ∀ u v, v ∈ childrenOf g u → rank v < rank u) (fuel : Nat) :
    ∀ (cycles branch children : List ID) (reason : String),
      ((keys g).toFinset \ branch.toFinset).card + 2 ≤ fuel →
      (∀ v ∈ children, ∀ b ∈ branch, rank v < rank b) →
      hasCycle g fuel cycles branch children reason = some (cycles, false, "") := by
  induction fuel using Nat.strong_induction_on with
  | _ fuel ih =>
      intro cycles branch children reason hfuel hinv
      cases fuel with
      | zero => omega
      | succ f =>
          rw [hasCycle]
          have hfind : branch.find? (fun bid => listContains children bid) = none := by
            rw [List.find?_eq_none]
            intro b hb hpb
            have hbc : b ∈ children := (listContains_iff _ _).mp hpb
            exact absurd (hinv b hbc b hb) (lt_irrefl _)
          rw [hfind]
          apply hasCycleChildren_all_false
          intro c tid htid
          have htidc : tid ∈ children := (mem_sortedIds children tid).mp htid
          have htidnb : tid ∉ branch := by
            intro hb
            exact absurd (hinv tid htidc tid hb) (lt_irrefl _)
          have hinv' : ∀ v ∈ childrenOf g tid, ∀ b ∈ branch ++ [tid],
              rank v < rank b := by
            intro v hv b hb
            rcases List.mem_append.mp hb with hb | hb
            · exact lt_trans (hrank tid v hv) (hinv tid htidc b hb)
            · rw [List.mem_singleton.mp hb]
              exact hrank tid v hv
          by_cases hk : tid ∈ keys g
          · apply ih f (Nat.lt_succ_self f) c (branch ++ [tid]) _ _ ?_ hinv'
            have hsub : (keys g).toFinset \ (branch ++ [tid]).toFinset ⊂
                (keys g).toFinset \ branch.toFinset := by
              have hss : (keys g).toFinset \ (branch ++ [tid]).toFinset ⊆
                  (keys g).toFinset \ branch.toFinset := by
                apply Finset.sdiff_subset_sdiff (Finset.Subset.refl _)
                intro x hx
                rw [List.mem_toFinset] at hx
                rw [List.mem_toFinset]
                exact List.mem_append_left _ hx
              rw [Finset.ssubset_iff_of_subset hss]
              refine ⟨tid, ?_, ?_⟩
              · rw [Finset.mem_sdiff, List.mem_toFinset, List.mem_toFinset]
                exact ⟨hk, htidnb⟩
              · rw [Finset.mem_sdiff, List.mem_toFinset, List.mem_toFinset]
                rintro ⟨-, hcon⟩
                exact hcon (List.mem_append_right _ (List.mem_singleton.mpr rfl))
            have hlt := Finset.card_lt_card hsub
            omega
          · have hc : childrenOf g tid = [] := by
              unfold childrenOf
              cases hl : lookupList g tid with
              | none => rfl
              | some l0 =>
                  exfalso
                  apply hk
                  rw [← lookup_isSome_iff_mem_keys, hl]
                  rfl
            rw [hc]
            exact hasCycle_nil_children g f (by omega) c (branch ++ [tid]) _

theorem card_sdiff_le_keys (g : List (ID × List ID)) (s : Finset ID) :
    ((keys g).toFinset \ s).card ≤ (keys g).length :=
  le_trans (Finset.card_le_card (Finset.sdiff_subset)) (List.toFinset_card_le _)

theorem validateNode_isSome (g : List (ID × List ID)) (fuel : Nat)
    (cycles : List ID) (id : ID) (children : List ID)
    (hfuel : (keys g).length + 2 ≤ fuel) :
    (validateNode g fuel cycles id children).isSome = true := by
  unfold validateNode
  have h := hasCycle_isSome g fuel cycles [id] children (id ++ " ->")
    (le_trans (by have := card_sdiff_le_keys g ([id] : List ID).toFinset; omega) hfuel)
  cases hr : hasCycle g fuel cycles [id] children (id ++ " ->") with
  | none =>
      rw [hr] at h
      cases h
  | some res =>
      obtain ⟨c', found, r⟩ := res
      cases found <;> rfl

theorem validateLoop_isSome (g : List (ID × List ID)) (fuel : Nat)
    (hfuel : (keys g).length + 2 ≤ fuel) (ids : List ID) :
    ∀ cycles, (validateLoop g fuel cycles ids).isSome = true := by
  induction ids with
  | nil =>
      intro cycles
      rfl
  | cons id rest ihl =>
      intro cycles
      rw [validateLoop]
      have h := validateNode_isSome g fuel cycles id (childrenOf g id) hfuel
      cases hr : validateNode g fuel cycles id (childrenOf g id) with
      | none =>
          rw [hr] at h
          cases h
      | some res =>
          obtain ⟨c', r, e⟩ := res
          cases e with
          | none => exact ihl c'
          | some e0 => rfl

theorem Validate_isSome {α : Type _} (d : DAG α) :
    (Validate d).isSome = true := by
  unfold Validate
  have hfuel : (keys d.dag).length + 2 ≤ validateFuel d := by
    unfold validateFuel keys
    rw [List.length_map]
  have h := validateLoop_isSome d.dag (validateFuel d) hfuel (IDs d) []
  cases hr : validateLoop d.dag (validateFuel d) [] (IDs d) with
  | none =>
      rw [hr] at h
      cases h
  | some res =>
      obtain ⟨c, r, e⟩ := res
      rfl

theorem validateNode_acyclic (g : List (ID × List ID)) (rank : ID → Nat)
    (hrank : ∀ u v, v ∈ childrenOf g u → rank v < rank u) (fuel : Nat)
    (cycles : List ID) (id : ID) (hfuel : (keys g).length + 2 ≤ fuel) :
    validateNode g fuel cycles id (childrenOf g id) = some (cycles, "", none) := by
  unfold validateNode
  rw [hasCycle_acyclic g rank hrank fuel cycles [id] (childrenOf g id) (id ++ " ->")
    (le_trans (by have := card_sdiff_le_keys g ([id] : List ID).toFinset; omega) hfuel)
    (by
      intro v hv b hb
      rw [List.mem_singleton.mp hb]
      exact hrank id v hv)]

theorem validateLoop_acyclic (g : List (ID × List ID)) (rank : ID → Nat)
    (hrank : ∀ u v, v ∈ childrenOf g u → rank v < rank u) (fuel : Nat)
    (hfuel : (keys g).length + 2 ≤ fuel) (ids : List ID) :
    ∀ cycles, validateLoop g fuel cycles ids = some (cycles, "", none) := by
  induction ids with
  | nil =>
      intro cycles
      rfl
  | cons id rest ihl =>
      intro cycles
      rw [validateLoop, validateNode_acyclic g rank hrank fuel cycles id hfuel]
      exact ihl cycles

theorem Validate_acyclic {α : Type _} (d : DAG α) (h : Acyclic d.dag) :
    Validate d = some ({ d with cycles := [], validated := true }, "", none) := by
  obtain ⟨rank, hrank⟩ := h
  unfold Validate
  have hfuel : (keys d.dag).length + 2 ≤ validateFuel d := by
    unfold validateFuel keys
    rw [List.length_map]
  rw [validateLoop_acyclic d.dag rank hrank (validateFuel d) hfuel (IDs d) []]

theorem Validate_validated {α : Type _} (d d' : DAG α) (r : String)
    (e : Option DagError) (h : Validate d = some (d', r, e)) :
    d'.validated = true := by
  unfold Validate at h
  cases hr : validateLoop d.dag (validateFuel d) [] (IDs d) with
  | none =>
      rw [hr] at h
      cases h
  | some res =>
      obtain ⟨c, r0, e0⟩ := res
      rw [hr] at h
      cases h
      rfl

theorem Validate_cycles_congr {α : Type _} (d : DAG α) (c : List ID) :
    Validate { d with cycles := c } = Validate d := by
  cases d
  rfl

theorem HasCycle_isSome {α : Type _} (d : DAG α) (id : ID) :
    (HasCycle d id).isSome = true := by
  unfold HasCycle
  by_cases hv : d.validated = false
  · rw [if_pos hv]
    have h := Validate_isSome d
    cases hr : Validate d with
    | none =>
        rw [hr] at h
        cases h
    | some res =>
        obtain ⟨d', r, e⟩ := res
        cases e <;> rfl
  · rw [if_neg hv]
    rfl

theorem HasCycle_of_validated {α : Type _} (d : DAG α) (id : ID)
    (h : d.validated = true) :
    HasCycle d id = some (d, listContains d.cycles id) := by
  unfold HasCycle
  rw [if_neg (by rw [h]; intro hc; cases hc)]

end ValidateLemmas

/-! ### Lemmas about `walkFrom`, `orderLoop` and `Order` -/

section OrderLemmas

theorem walkChildren_props (g : List (ID × List ID))
    (step : List ID × List ID → ID → Option (List ID × List ID))
    (hstep : ∀ tid s s', step s tid = some s' →
      (∃ t, s'.1 = s.1 ++ t) ∧ (∀ x ∈ s.2, x ∈ s'.2) ∧ tid ∈ s'.2 ∧
        (OrderInv g s → OrderInv g s')) :
    ∀ (l : List ID) (s s' : List ID × List ID),
      walkChildren step l s = some s' →
      (∃ t, s'.1 = s.1 ++ t) ∧ (∀ x ∈ s.2, x ∈ s'.2) ∧
        (∀ tid ∈ l, tid ∈ s'.2) ∧ (OrderInv g s → OrderInv g s') := by
  intro l
  induction l with
  | nil =>
      intro s s' h
      cases h
      refine ⟨⟨[], (List.append_nil _).symm⟩, fun x hx => hx, ?_, fun hi => hi⟩
      intro tid ht
      cases ht
  | cons tid rest ihl =>
      intro s s' h
      rw [walkChildren] at h
      cases hs : step s tid with
      | none =>
          rw [hs] at h
          cases h
      | some s1 =>
          rw [hs] at h
          obtain ⟨hgrow1, hvis1, htid1, hinv1⟩ := hstep tid s s1 hs
          obtain ⟨hgrow2, hvis2, hall2, hinv2⟩ := ihl s1 s' h
          refine ⟨?_, ?_, ?_, fun hi => hinv2 (hinv1 hi)⟩
          · obtain ⟨t1, ht1⟩ := hgrow1
            obtain ⟨t2, ht2⟩ := hgrow2
            exact ⟨t1 ++ t2, by rw [ht2, ht1, List.append_assoc]⟩
          · exact fun x hx => hvis2 x (hvis1 x hx)
          · intro x hx
            rcases List.mem_cons.mp hx with rfl | hx
            · exact hvis2 x htid1
            · exact hall2 x hx

theorem walkFrom_props (g : List (ID × List ID)) (fuel : Nat) :
    ∀ (id : ID) (s s' : List ID × List ID),
      walkFrom g fuel id s = some s' →
      (∃ t, s'.1 = s.1 ++ t) ∧ (∀ x ∈ s.2, x ∈ s'.2) ∧ id ∈ s'.2 ∧
        (OrderInv g s → OrderInv g s') := by
  induction fuel using Nat.strong_induction_on with
  | _ fuel ih =>
      intro id s s' h
      cases fuel with
      | zero =>
          rw [walkFrom] at h
          cases h
      | succ f =>
          rw [walkFrom] at h
          cases hw : walkChildren (fun s' tid => walkFrom g f tid s')
              (sortedIds (childrenOf g id)) s with
          | none =>
              rw [hw] at h
              cases h
          | some s1 =>
              rw [hw] at h
              obtain ⟨order1, visited1⟩ := s1
              obtain ⟨hgrow, hvis, hall, hinv⟩ :=
                walkChildren_props g _
                  (fun tid s0 s0' hs => ih f (Nat.lt_succ_self f) tid s0 s0' hs)
                  (sortedIds (childrenOf g id)) s (order1, visited1) hw
              cases h
              have hchild : ∀ v ∈ childrenOf g id, v ∈ visited1 := by
                intro v hv
                exact hall v ((mem_sortedIds _ v).mpr hv)
              by_cases hc : listContains visited1 id = true
              · rw [if_pos hc]
                have hidv : id ∈ visited1 := (listContains_iff _ _).mp hc
                refine ⟨hgrow, ?_, ?_, ?_⟩
                · intro x hx
                  exact (mem_setAdd _ _ _).mpr (Or.inr (hvis x hx))
                · exact (mem_setAdd _ _ _).mpr (Or.inl rfl)
                · intro hi
                  obtain ⟨hnd, hiff, hclose⟩ := hinv hi
                  refine ⟨hnd, ?_, hclose⟩
                  intro x
                  rw [mem_setAdd]
                  constructor
                  · rintro (rfl | hx)
                    · exact (hiff x).mp hidv
                    · exact (hiff x).mp hx
                  · exact fun hx => Or.inr ((hiff x).mpr hx)
              · rw [if_neg hc]
                have hidnv : id ∉ visited1 := by
                  intro hm
                  exact hc ((listContains_iff _ _).mpr hm)
                refine ⟨?_, ?_, ?_, ?_⟩
                · obtain ⟨t, ht⟩ := hgrow
                  refine ⟨t ++ [id], ?_⟩
                  show order1 ++ [id] = s.1 ++ (t ++ [id])
                  have ht' : order1 = s.1 ++ t := ht
                  rw [ht', List.append_assoc]
                · intro x hx
                  exact (mem_setAdd _ _ _).mpr (Or.inr (hvis x hx))
                · exact (mem_setAdd _ _ _).mpr (Or.inl rfl)
                · intro hi
                  obtain ⟨hnd, hiff, hclose⟩ := hinv hi
                  have hidno : id ∉ order1 := fun hm => hidnv ((hiff id).mpr hm)
                  refine ⟨?_, ?_, ?_⟩
                  · show (order1 ++ [id]).Nodup
                    rw [List.nodup_append]
                    refine ⟨hnd, List.nodup_singleton id, ?_⟩
                    intro x hx hx'
                    rw [List.mem_singleton] at hx'
                    subst hx'
                    exact hidno hx
                  · intro x
                    show x ∈ setAdd visited1 id ↔ x ∈ order1 ++ [id]
                    rw [mem_setAdd, List.mem_append, List.mem_singleton]
                    constructor
                    · rintro (rfl | hx)
                      · exact Or.inr rfl
                      · exact Or.inl ((hiff x).mp hx)
                    · rintro (hx | rfl)
                      · exact Or.inr ((hiff x).mpr hx)
                      · exact Or.inl rfl
                  · intro u v hu hv
                    show v ∈ order1 ++ [id] ∧
                      idxOf (order1 ++ [id]) v < idxOf (order1 ++ [id]) u
                    have hu' : u ∈ order1 ∨ u = id := by
                      rcases List.mem_append.mp hu with hx | hx
                      · exact Or.inl hx
                      · exact Or.inr (List.mem_singleton.mp hx)
                    rcases hu' with hu' | rfl
                    · obtain ⟨hvm, hidx⟩ := hclose u v hu' hv
                      refine ⟨List.mem_append_left _ hvm, ?_⟩
                      rw [idxOf_append_left _ _ _ hvm, idxOf_append_left _ _ _ hu']
                      exact hidx
                    · have hvm : v ∈ order1 := (hiff v).mp (hchild v hv)
                      refine ⟨List.mem_append_left _ hvm, ?_⟩
                      rw [idxOf_append_left _ _ _ hvm, idxOf_append_self _ _ hidno]
                      exact idxOf_lt_length order1 v hvm

theorem walkChildren_isSome
    (step : List ID × List ID → ID → Option (List ID × List ID)) (l : List ID)
    (hstep : ∀ s tid, tid ∈ l → (step s tid).isSome = true) :
    ∀ s, (walkChildren step l s).isSome = true := by
  induction l with
  | nil =>
      intro s
      rfl
  | cons tid rest ihl =>
      intro s
      rw [walkChildren]
      have h := hstep s tid (List.mem_cons_self _ _)
      cases hs : step s tid with
      | none =>
          rw [hs] at h
          cases h
      | some s1 =>
          exact ihl (fun s0 t ht => hstep s0 t (List.mem_cons_of_mem _ ht)) s1

theorem walkFrom_nil_children (g : List (ID × List ID)) (fuel : Nat)
    (hf : 1 ≤ fuel) (id : ID) (hc : childrenOf g id = [])
    (s : List ID × List ID) : (walkFrom g fuel id s).isSome = true := by
  cases fuel with
  | zero => omega
  | succ f =>
      rw [walkFrom, hc]
      rfl

theorem walkFrom_acyclic_isSome (g : List (ID × List ID)) (rank : ID → Nat)
    (hrank : ∀ u v, v ∈ childrenOf g u → rank v < rank u) (fuel : Nat) :
    ∀ (id : ID) (s : List ID × List ID),
      ((keys g).toFinset.filter (fun k => rank k < rank id)).card + 2 ≤ fuel →
      (walkFrom g fuel id s).isSome = true := by
  induction fuel using Nat.strong_induction_on with
  | _ fuel ih =>
      intro id s hfuel
      cases fuel with
      | zero => omega
      | succ f =>
          rw [walkFrom]
          have hsome : ∀ (s0 : List ID × List ID) (tid : ID),
              tid ∈ sortedIds (childrenOf g id) →
              (walkFrom g f tid s0).isSome = true := by
            intro s0 tid htid
            have htc : tid ∈ childrenOf g id := (mem_sortedIds _ tid).mp htid
            have hrt : rank tid < rank id := hrank id tid htc
            by_cases hk : tid ∈ keys g
            · apply ih f (Nat.lt_succ_self f)
              have hsub : (keys g).toFinset.filter (fun k => rank k < rank tid) ⊂
                  (keys g).toFinset.filter (fun k => rank k < rank id) := by
                have hss : (keys g).toFinset.filter (fun k => rank k < rank tid) ⊆
                    (keys g).toFinset.filter (fun k => rank k < rank id) := by
                  intro x hx
                  rw [Finset.mem_filter] at hx ⊢
                  exact ⟨hx.1, lt_trans hx.2 hrt⟩
                rw [Finset.ssubset_iff_of_subset hss]
                refine ⟨tid, ?_, ?_⟩
                · rw [Finset.mem_filter, List.mem_toFinset]
                  exact ⟨hk, hrt⟩
                · rw [Finset.mem_filter]
                  rintro ⟨-, hcon⟩
                  exact absurd hcon (lt_irrefl _)
              have hlt := Finset.card_lt_card hsub
              omega
            · have hc : childrenOf g tid = [] := by
                unfold childrenOf
                cases hl : lookupList g tid with
                | none => rfl
                | some l0 =>
                    exfalso
                    apply hk
                    rw [← lookup_isSome_iff_mem_keys, hl]
                    rfl
              exact walkFrom_nil_children g f (by omega) tid hc s0
          have h := walkChildren_isSome _ _ hsome s
          cases hw : walkChildren (fun s' tid => walkFrom g f tid s')
              (sortedIds (childrenOf g id)) s with
          | none =>
              rw [hw] at h
              cases h
          | some s1 =>
              obtain ⟨order1, visited1⟩ := s1
              rfl

theorem orderLoop_acyclic (g : List (ID × List ID)) (rank : ID → Nat)
    (hrank : ∀ u v, v ∈ childrenOf g u → rank v < rank u) (fuel : Nat)
    (hfuel : (keys g).length + 2 ≤ fuel) (ids : List ID) :
    ∀ s : List ID × List ID, OrderInv g s →
      ∃ s', orderLoop g fuel ids s = some s' ∧ OrderInv g s' ∧
        (∀ id ∈ ids, id ∈ s'.2) ∧ (∀ x ∈ s.2, x ∈ s'.2) ∧
        (∃ t, s'.1 = s.1 ++ t) := by
  induction ids with
  | nil =>
      intro s hi
      refine ⟨s, rfl, hi, ?_, fun x hx => hx, ⟨[], (List.append_nil _).symm⟩⟩
      intro id hid
      cases hid
  | cons id rest ihl =>
      intro s hi
      rw [orderLoop]
      by_cases hc : listContains s.2 id = true
      · rw [if_pos hc]
        obtain ⟨s', hrun, hi', hall, hmono, hgrow⟩ := ihl s hi
        refine ⟨s', hrun, hi', ?_, hmono, hgrow⟩
        intro x hx
        rcases List.mem_cons.mp hx with rfl | hx
        · exact hmono x ((listContains_iff _ _).mp hc)
        · exact hall x hx
      · rw [if_neg hc]
        have hwsome : (walkFrom g fuel id s).isSome = true := by
          apply walkFrom_acyclic_isSome g rank hrank fuel id s
          have hle : ((keys g).toFinset.filter (fun k => rank k < rank id)).card ≤
              (keys g).length :=
            le_trans (Finset.card_le_card (Finset.filter_subset _ _))
              (List.toFinset_card_le _)
          omega
        cases hw : walkFrom g fuel id s with
        | none =>
            rw [hw] at hwsome
            cases hwsome
        | some s1 =>
            obtain ⟨hgrow1, hvis1, hid1, hinv1⟩ := walkFrom_props g fuel id s s1 hw
            have hset : setAdd s1.2 id = s1.2 := by
              unfold setAdd
              rw [if_pos ((listContains_iff _ _).mpr hid1)]
            obtain ⟨s', hrun, hi', hall, hmono, hgrow⟩ := ihl (s1.1, s1.2) (by
              have h1 := hinv1 hi
              exact h1)
            refine ⟨s', ?_, hi', ?_, ?_, ?_⟩
            · show orderLoop g fuel rest (s1.1, setAdd s1.2 id) = some s'
              rw [hset]
              exact hrun
            · intro x hx
              rcases List.mem_cons.mp hx with rfl | hx
              · exact hmono x hid1
              · exact hall x hx
            · exact fun x hx => hmono x (hvis1 x hx)
            · obtain ⟨t1, ht1⟩ := hgrow1
              obtain ⟨t2, ht2⟩ := hgrow
              refine ⟨t1 ++ t2, ?_⟩
              rw [show s'.1 = s1.1 ++ t2 from ht2, show s1.1 = s.1 ++ t1 from ht1,
                List.append_assoc]

theorem Order_acyclic {α : Type _} (d : DAG α) (h : Acyclic d.dag) :
    ∃ l, Order d = some l ∧ l.Nodup ∧
      (∀ u ∈ keys d.dag, u ∈ l) ∧
      (∀ u v, u ∈ l → v ∈ childrenOf d.dag u → v ∈ l ∧ idxOf l v < idxOf l u) := by
  obtain ⟨rank, hrank⟩ := h
  have hfuel : (keys d.dag).length + 2 ≤ orderFuel d := by
    unfold orderFuel keys
    rw [List.length_map]
  have hinv0 : OrderInv d.dag ([], []) := by
    refine ⟨List.nodup_nil, ?_, ?_⟩
    · intro x
      exact Iff.rfl
    · intro u v hu
      cases hu
  obtain ⟨s', hrun, hinv', hall, -, -⟩ :=
    orderLoop_acyclic d.dag rank hrank (orderFuel d) hfuel (IDs d) ([], []) hinv0
  refine ⟨s'.1, ?_, hinv'.1, ?_, hinv'.2.2⟩
  · unfold Order
    rw [hrun]
    rfl
  · intro u hu
    refine (hinv'.2.1 u).mp (hall u ?_)
    unfold IDs
    exact (mem_sortedIds _ u).mpr hu

theorem walkChildren_congr
    (step1 step2 : List ID × List ID → ID → Option (List ID × List ID))
    (hstep : ∀ s tid, step1 s tid = step2 s tid) :
    ∀ (l : List ID) (s : List ID × List ID),
      walkChildren step1 l s = walkChildren step2 l s := by
  intro l
  induction l with
  | nil =>
      intro s
      rfl
  | cons tid rest ihl =>
      intro s
      rw [walkChildren, walkChildren, hstep s tid]
      cases step2 s tid with
      | none => rfl
      | some s1 => exact ihl s1

theorem walkFrom_congr (g1 g2 : List (ID × List ID))
    (hg : ∀ u, sortedIds (childrenOf g1 u) = sortedIds (childrenOf g2 u))
    (fuel : Nat) :
    ∀ (id : ID) (s : List ID × List ID),
      walkFrom g1 fuel id s = walkFrom g2 fuel id s := by
  induction fuel with
  | zero =>
      intro id s
      rfl
  | succ f ihf =>
      intro id s
      rw [walkFrom, walkFrom, hg id,
        walkChildren_congr _ _ (fun s0 tid => ihf tid s0)]

theorem orderLoop_congr (g1 g2 : List (ID × List ID))
    (hg : ∀ u, sortedIds (childrenOf g1 u) = sortedIds (childrenOf g2 u))
    (fuel : Nat) (ids : List ID) :
    ∀ s : List ID × List ID,
      orderLoop g1 fuel ids s = orderLoop g2 fuel ids s := by
  induction ids with
  | nil =>
      intro s
      rfl
  | cons id rest ihl =>
      intro s
      rw [orderLoop, orderLoop]
      by_cases hc : listContains s.2 id = true
      · rw [if_pos hc, if_pos hc]
        exact ihl s
      · rw [if_neg hc, if_neg hc, walkFrom_congr g1 g2 hg fuel id s]
        cases walkFrom g2 fuel id s with
        | none => rfl
        | some s1 => exact ihl (s1.1, setAdd s1.2 id)

theorem childrenOf_nodup_of_entries (g : List (ID × List ID))
    (h : ∀ p ∈ g, p.2.Nodup) (u : ID) : (childrenOf g u).Nodup := by
  unfold childrenOf
  cases hl : lookupList g u with
  | none => exact List.nodup_nil
  | some l => exact h (u, l) (lookup_mem g u l hl)

theorem forkDag_acyclic : Acyclic forkDag.dag := by
  refine ⟨fun s => if s = "A" then 1 else 0, ?_⟩
  intro u v hv
  have hdag : forkDag.dag = [("A", ["B", "C"]), ("B", []), ("C", [])] := by
    decide
  by_cases h1 : u = "A"
  · subst h1
    have hc : childrenOf forkDag.dag "A" = ["B", "C"] := by decide
    rw [hc] at hv
    rcases List.mem_cons.mp hv with rfl | hv
    · decide
    · rw [List.mem_singleton.mp hv]
      decide
  · exfalso
    by_cases h2 : u = "B"
    · subst h2
      have hc : childrenOf forkDag.dag "B" = [] := by decide
      rw [hc] at hv
      cases hv
    · by_cases h3 : u = "C"
      · subst h3
        have hc : childrenOf forkDag.dag "C" = [] := by decide
        rw [hc] at hv
        cases hv
      · have hc : childrenOf forkDag.dag u = [] := by
          simp only [childrenOf, hdag, lookupList]
          rw [if_neg (fun hh => h1 hh.symm), if_neg (fun hh => h2 hh.symm),
            if_neg (fun hh => h3 hh.symm)]
          rfl
        rw [hc] at hv
        cases hv

end OrderLemmas

/-! ### Claim theorems -/

/-- C1 counterexample: on the graph A→B→C→A (built via successor hints)
the code marks only the offending identifier and the origin of the
search (both `A`) in the cycle set, so HasCycle(B) and HasCycle(C)
return `false`, contradicting the claim that they return `true`. -/
theorem claim_C1_counterexample :
    (HasCycle cycleDag "B").map Prod.snd = some false ∧
    (HasCycle cycleDag "C").map Prod.snd = some false := by
  decide

/-- C1 (amended): for the graph A→B→C→A built via successor hints,
Validate() returns CycleDetectedError with path description
"A -> B -> C -> A" (containing A, B, C in traversal order); afterwards
HasCycle(A) returns true, but HasCycle(B) and HasCycle(C) return false
(only the offending identifier and the search origin are marked), and
HasCycle(D) returns false for the disjoint node D. -/
theorem claim_C1 :
    (Validate cycleDag).map (fun x => (x.2.1, x.2.2)) =
      some ("A -> B -> C -> A", some DagError.ErrCycleDetected) ∧
    (HasCycle cycleDag "A").map Prod.snd = some true ∧
    (HasCycle cycleDag "B").map Prod.snd = some false ∧
    (HasCycle cycleDag "C").map Prod.snd = some false ∧
    (HasCycle cycleDag "D").map Prod.snd = some false := by
  decide

/-- C3: a second AddNode on an identifier that already has a value-map
entry returns DuplicateNodeError and leaves the structure entirely
unchanged (the returned state is literally the input state: the check
precedes every mutation). -/
theorem claim_C3 : ∀ (α : Type) (d : DAG α) (id : ID) (v : α)
    (before after : List ID),
    (lookupList d.values id).isSome = true →
    AddNode d id v before after = some (d, some DagError.ErrDuplicateNode) :=
  fun _ d id v before after h => AddNode_duplicate d id v before after h

/-- C3 witness: inserting A a second time over `oneNode` fails with
DuplicateNodeError and returns `oneNode` unchanged. -/
theorem claim_C3_witness :
    AddNode oneNode "A" 2 [] [] = some (oneNode, some DagError.ErrDuplicateNode) :=
  claim_C3 Nat oneNode "A" 2 [] [] (by decide)

/-- C8: on every graph whose adjacency structure admits a rank function
(equivalently, contains no cycle), Validate() terminates with an empty
reason string and no error, sets the validated flag, and leaves the
cycle set empty. -/
theorem claim_C8 : ∀ (α : Type) (d : DAG α), Acyclic d.dag →
    Validate d = some ({ d with cycles := [], validated := true }, "", none) :=
  fun _ d h => Validate_acyclic d h

/-- C8 witness: the acyclic fork A→B, A→C validates cleanly. -/
theorem claim_C8_witness :
    Validate forkDag =
      some ({ forkDag with cycles := [], validated := true }, "", none) :=
  claim_C8 Nat forkDag forkDag_acyclic

/-- C9: Validate() installs a fresh cycle set and sets the validated
flag before traversing, so (i) its result does not depend on the cycle
set held before the call, (ii) the validated flag is true in the
returned state even when a cycle error is returned, and (iii) as long as
the flag is set, HasCycle reads the cached cycle set directly. -/
theorem claim_C9 :
    (∀ (α : Type) (d : DAG α) (c : List ID),
        Validate { d with cycles := c } = Validate d) ∧
    (∀ (α : Type) (d d' : DAG α) (r : String) (e : Option DagError),
        Validate d = some (d', r, e) → d'.validated = true) ∧
    (∀ (α : Type) (d : DAG α) (q : ID), d.validated = true →
        HasCycle d q = some (d, listContains d.cycles q)) := by
  refine ⟨?_, ?_, ?_⟩
  · exact fun _ d c => Validate_cycles_congr d c
  · exact fun _ d d' r e h => Validate_validated d d' r e h
  · exact fun _ d q h => HasCycle_of_validated d q h

/-- C9 witness: on the already-validated cycle graph, HasCycle reads the
cached cycle set without re-running validation. -/
theorem claim_C9_witness :
    HasCycle cycleDagValidated "A" =
      some (cycleDagValidated, listContains cycleDagValidated.cycles "A") :=
  claim_C9.2.2 Nat cycleDagValidated "A" (by decide)

/-- C10: the internal panic in addEdge is unreachable from AddNode: on
every input, AddNode produces a result (the adjacency entry of every
`from` endpoint is created before the corresponding addEdge call). -/
theorem claim_C10 : ∀ (α : Type) (d : DAG α) (id : ID) (v : α)
    (before after : List ID),
    (AddNode d id v before after).isSome = true :=
  fun _ d id v before after => AddNode_isSome d id v before after

/-- C7: HasCycle never errors: it always produces a boolean (when the
validated flag is unset it re-runs Validate, collapsing a successful
validation to `false`), and after any successful insertion the answer is
computed by re-validating the post-insertion graph, never from the stale
cached cycle set. -/
theorem claim_C7 :
    (∀ (α : Type) (d : DAG α) (q : ID), (HasCycle d q).isSome = true) ∧
    (∀ (α : Type) (d d' : DAG α) (id : ID) (v : α) (before after : List ID)
        (q : ID),
        AddNode d id v before after = some (d', none) →
        HasCycle d' q =
          match Validate d' with
          | none => none
          | some (d'', _, none) => some (d'', false)
          | some (d'', _, some _) => some (d'', listContains d''.cycles q)) := by
  constructor
  · exact fun _ d q => HasCycle_isSome d q
  · intro α d d' id v before after q hrun
    have hvalid : d'.validated = false := by
      cases hdup : lookupList d.values id with
      | some w =>
          rw [AddNode_duplicate d id v before after (by rw [hdup]; rfl)] at hrun
          simp at hrun
      | none =>
          obtain ⟨d'', hrun', -, -, -, hv, -⟩ :=
            AddNode_success d id v before after hdup
          rw [hrun'] at hrun
          cases hrun
          exact hv
    unfold HasCycle
    rw [if_pos hvalid]
    cases hV : Validate d' with
    | none => rfl
    | some res =>
        obtain ⟨d'', r, e⟩ := res
        cases e <;> rfl

/-- C2 counterexample: inserting A with successor hint B (never
inserting B) succeeds, but B gets no adjacency-map entry and is absent
from AllIDs(), contradicting the claim that every mentioned successor
endpoint has an adjacency-map key. -/
theorem claim_C2_counterexample :
    AddNode (New (α := Nat)) "A" 1 [] ["B"] = some (endpointDag, none) ∧
    ("B" ∈ keys endpointDag.dag → False) ∧
    IDs endpointDag = ["A"] := by
  refine ⟨by decide, ?_, by decide⟩
  intro h
  have : decide ("B" ∈ keys endpointDag.dag) = true := decide_eq_true h
  cases this

/-- C2 (amended): every identifier that is explicitly inserted or
mentioned as a predecessor hint has an adjacency-map key after any
sequence of calls; an identifier mentioned only as a successor gets the
edge into it but no adjacency entry of its own: inserting A with
successor B (never inserting B) leaves B out of AllIDs(), while B still
appears in Order() and in ChildrenOf(A), and Lookup(B) fails with
NodeNotFoundError. -/
theorem claim_C2 :
    (∀ (α : Type) (pre : List (Op α)) (op : Op α) (post : List (Op α))
        (d' : DAG α),
        AddNode (runOps New pre) op.id op.value op.before op.after =
          some (d', none) →
        op.id ∈ keys (runOps (New (α := α)) (pre ++ op :: post)).dag ∧
        ∀ b ∈ op.before,
          b ∈ keys (runOps (New (α := α)) (pre ++ op :: post)).dag) ∧
    Order endpointDag = some ["B", "A"] ∧
    IDs endpointDag = ["A"] ∧
    ChildrenOf endpointDag "A" = ["B"] ∧
    Node endpointDag "B" = Except.error DagError.ErrNodeNotFound := by
  refine ⟨?_, by decide, by decide, by decide, by rfl⟩
  intro α pre op post d' hrun
  have happ : runOps (New (α := α)) (pre ++ op :: post) =
      runOps (applyOp (runOps New pre) op) post := by
    rw [runOps_append]
    rfl
  have hd' : applyOp (runOps (New (α := α)) pre) op = d' := by
    unfold applyOp
    rw [hrun]
  cases hdup : lookupList (runOps (New (α := α)) pre).values op.id with
  | some w =>
      rw [AddNode_duplicate _ _ _ _ _ (by rw [hdup]; rfl)] at hrun
      simp at hrun
  | none =>
      obtain ⟨d'', hrun', hkeys, -⟩ :=
        AddNode_success _ op.id op.value op.before op.after hdup
      rw [hrun'] at hrun
      cases hrun
      rw [happ, hd']
      constructor
      · exact runOps_keys_mono post d' op.id
          ((hkeys op.id).mpr (Or.inr (Or.inr rfl)))
      · intro b hb
        exact runOps_keys_mono post d' b ((hkeys b).mpr (Or.inr (Or.inl hb)))

/-- C2 witness: the universal part at A inserted over the empty
structure with predecessor P and successor B. -/
theorem claim_C2_witness :
    "A" ∈ keys (runOps (New (α := Nat))
      ([] ++ (Op.mk "A" 1 ["P"] ["B"]) :: [])).dag ∧
    ∀ b ∈ (Op.mk "A" (1 : Nat) ["P"] ["B"]).before,
      b ∈ keys (runOps (New (α := Nat))
        ([] ++ (Op.mk "A" 1 ["P"] ["B"]) :: [])).dag :=
  claim_C2.1 Nat [] (Op.mk "A" 1 ["P"] ["B"]) []
    (applyOp New (Op.mk "A" 1 ["P"] ["B"])) (by decide)

/-- C4: declaring the edge u→v any number of times across successful
insertions (via predecessor or successor hints) yields exactly one copy
of v in ChildrenOf(u), and each call only appends to an edge list, so
the relative insertion order of distinct edges is preserved. -/
theorem claim_C4 :
    (∀ (α : Type) (pre : List (Op α)) (op : Op α) (post : List (Op α))
        (d' : DAG α) (u v : ID),
        AddNode (runOps New pre) op.id op.value op.before op.after =
          some (d', none) →
        ((op.id = u ∧ v ∈ op.after) ∨ (op.id = v ∧ u ∈ op.before)) →
        List.count v (ChildrenOf (runOps (New (α := α)) (pre ++ op :: post)) u)
          = 1) ∧
    (∀ (α : Type) (d : DAG α) (op : Op α) (u : ID),
        ∃ s, ChildrenOf (applyOp d op) u = ChildrenOf d u ++ s) := by
  constructor
  · intro α pre op post d' u v hrun hdecl
    have happ : runOps (New (α := α)) (pre ++ op :: post) =
        runOps (applyOp (runOps New pre) op) post := by
      rw [runOps_append]
      rfl
    have hd' : applyOp (runOps (New (α := α)) pre) op = d' := by
      unfold applyOp
      rw [hrun]
    cases hdup : lookupList (runOps (New (α := α)) pre).values op.id with
    | some w =>
        rw [AddNode_duplicate _ _ _ _ _ (by rw [hdup]; rfl)] at hrun
        simp at hrun
    | none =>
        obtain ⟨d'', hrun', -, -, -, -, -, hbmem, hamem, -, -⟩ :=
          AddNode_success _ op.id op.value op.before op.after hdup
        rw [hrun'] at hrun
        cases hrun
        have hedge : v ∈ childrenOf d'.dag u := by
          rcases hdecl with ⟨hid, hv⟩ | ⟨hid, hu⟩
          · rw [← hid]
            exact hamem v hv
          · have := hbmem u hu
            rw [hid] at this
            exact this
        have hfin : v ∈ childrenOf (runOps (New (α := α))
            (pre ++ op :: post)).dag u := by
          rw [happ, hd']
          exact mem_of_growth (runOps_growth post d') hedge
        have hnd := (runOps_New_wf (pre ++ op :: post)).2 u
        exact List.count_eq_one_of_mem hnd hfin
  · intro α d op u
    exact applyOp_growth d op u

/-- C4 witness: declaring the successor edge A→B twice in one insertion
leaves exactly one copy of B in ChildrenOf(A). -/
theorem claim_C4_witness :
    List.count "B" (ChildrenOf (runOps (New (α := Nat))
      ([] ++ (Op.mk "A" 1 [] ["B", "B"]) :: [])) "A") = 1 :=
  claim_C4.1 Nat [] (Op.mk "A" 1 [] ["B", "B"]) [] dupEdgeDag "A" "B"
    (by decide) (Or.inl ⟨rfl, by decide⟩)

/-- C5: on every acyclic graph (one admitting a rank function), Order()
succeeds and returns a reverse-topological ordering: every key appears,
and for every edge u→v with u in the output, v appears at a strictly
smaller index; ties are broken by walking children through `sortedIds`,
which produces the ascending reordering of any id list. -/
theorem claim_C5 : ∀ (α : Type) (d : DAG α), Acyclic d.dag →
    (∃ l, Order d = some l ∧
      (∀ u ∈ keys d.dag, u ∈ l) ∧
      (∀ u v, u ∈ l → v ∈ ChildrenOf d u → v ∈ l ∧ idxOf l v < idxOf l u)) ∧
    (∀ ids : List ID, (sortedIds ids).Sorted (· ≤ ·) ∧
      List.Perm (sortedIds ids) ids) := by
  intro α d h
  constructor
  · obtain ⟨l, hrun, -, hall, hclose⟩ := Order_acyclic d h
    exact ⟨l, hrun, hall, hclose⟩
  · intro ids
    exact ⟨sortedIds_sorted ids, sortedIds_perm ids⟩

/-- C5 witness: the fork A→B, A→C, whose order is ["B", "C", "A"]. -/
theorem claim_C5_witness :
    ((∃ l, Order forkDag = some l ∧
      (∀ u ∈ keys forkDag.dag, u ∈ l) ∧
      (∀ u v, u ∈ l → v ∈ ChildrenOf forkDag u →
        v ∈ l ∧ idxOf l v < idxOf l u)) ∧
    (∀ ids : List ID, (sortedIds ids).Sorted (· ≤ ·) ∧
      List.Perm (sortedIds ids) ids)) ∧
    Order forkDag = some ["B", "C", "A"] :=
  ⟨claim_C5 Nat forkDag forkDag_acyclic, by decide⟩

/-- C6: AllIDs() and Order() depend only on the key set and the edge
membership relation, not on the order in which entries or edges were
declared (and, being pure functions of the state, repeated calls on an
unmutated structure trivially coincide); AllIDs() is sorted ascending. -/
theorem claim_C6 :
    (∀ (α : Type) (d d₂ : DAG α),
        (keys d.dag).Nodup → (keys d₂.dag).Nodup →
        (∀ p ∈ d.dag, p.2.Nodup) → (∀ p ∈ d₂.dag, p.2.Nodup) →
        (∀ x, x ∈ keys d.dag ↔ x ∈ keys d₂.dag) →
        (∀ u v, v ∈ ChildrenOf d u ↔ v ∈ ChildrenOf d₂ u) →
        IDs d = IDs d₂ ∧ Order d = Order d₂) ∧
    (∀ (α : Type) (d : DAG α), (IDs d).Sorted (· ≤ ·)) := by
  constructor
  · intro α d d₂ hk1 hk2 hn1 hn2 hk he
    have hids : IDs d = IDs d₂ := sortedIds_eq_of_mem_iff _ _ hk1 hk2 hk
    refine ⟨hids, ?_⟩
    have hg : ∀ u, sortedIds (childrenOf d.dag u) =
        sortedIds (childrenOf d₂.dag u) := by
      intro u
      exact sortedIds_eq_of_mem_iff _ _
        (childrenOf_nodup_of_entries d.dag hn1 u)
        (childrenOf_nodup_of_entries d₂.dag hn2 u)
        (fun v => he u v)
    have hperm : List.Perm (keys d.dag) (keys d₂.dag) :=
      (List.perm_ext_iff_of_nodup hk1 hk2).mpr hk
    have hlen : d.dag.length = d₂.dag.length := by
      have h1 := hperm.length_eq
      unfold keys at h1
      rw [List.length_map, List.length_map] at h1
      exact h1
    have hfuel : orderFuel d = orderFuel d₂ := by
      unfold orderFuel
      rw [hlen]
    unfold Order
    rw [hids, hfuel, orderLoop_congr d.dag d₂.dag hg (orderFuel d₂) (IDs d₂)]
  · intro α d
    exact sortedIds_sorted (keys d.dag)

/-- C6 witness: two structures declaring the same nodes and edges in a
different order produce identical AllIDs() and Order() sequences. -/
theorem claim_C6_witness :
    IDs permDagA = IDs permDagB ∧ Order permDagA = Order permDagB := by
  refine claim_C6.1 Nat permDagA permDagB (by decide) (by decide) (by decide)
    (by decide) ?_ ?_
  · intro x
    have h1 : keys permDagA.dag = ["A", "B", "C"] := by decide
    have h2 : keys permDagB.dag = ["C", "B", "A"] := by decide
    rw [h1, h2]
    simp only [List.mem_cons, List.not_mem_nil, or_false]
    tauto
  · intro u v
    by_cases h1 : u = "A"
    · subst h1
      have e1 : ChildrenOf permDagA "A" = ["B", "C"] := by decide
      have e2 : ChildrenOf permDagB "A" = ["C", "B"] := by decide
      rw [e1, e2]
      simp only [List.mem_cons, List.not_mem_nil, or_false]
      tauto
    · by_cases h2 : u = "B"
      · subst h2
        have e1 : ChildrenOf permDagA "B" = [] := by decide
        have e2 : ChildrenOf permDagB "B" = [] := by decide
        rw [e1, e2]
      · by_cases h3 : u = "C"
        · subst h3
          have e1 : ChildrenOf permDagA "C" = [] := by decide
          have e2 : ChildrenOf permDagB "C" = [] := by decide
          rw [e1, e2]
        · have e1 : ChildrenOf permDagA u = [] := by
            show childrenOf permDagA.dag u = []
            simp only [childrenOf, permDagA, lookupList]
            rw [if_neg (fun hh => h1 hh.symm), if_neg (fun hh => h2 hh.symm),
              if_neg (fun hh => h3 hh.symm)]
            rfl
          have e2 : ChildrenOf permDagB u = [] := by
            show childrenOf permDagB.dag u = []
            simp only [childrenOf, permDagB, lookupList]
            rw [if_neg (fun hh => h3 hh.symm), if_neg (fun hh => h2 hh.symm),
              if_neg (fun hh => h1 hh.symm)]
            rfl
          rw [e1, e2]

/-- C7 witness: after inserting E into `oneNode`, HasCycle is computed
from a fresh validation of the two-node graph. -/
theorem claim_C7_witness :
    HasCycle twoNode "A" =
      match Validate twoNode with
      | none => none
      | some (d'', _, none) => some (d'', false)
      | some (d'', _, some _) => some (d'', listContains d''.cycles "A") :=
  claim_C7.2 Nat oneNode twoNode "E" 5 [] [] "A" (by decide)

end TerramateDag
